import Mathlib

/-!
Verification development for `src/infra/glue/scripts/currency_bootstrap.py`.

The script's date handling uses Python `datetime.date` (proleptic Gregorian
calendar) together with `timedelta` day arithmetic.  We embed dates as
(year, month, day) triples, extending the year to all of `Int` (Python caps
years at 1..9999; the extension is the standard proleptic idealization and
matters only for inputs far outside the program's operating range).
`toOrd` mirrors `date.toordinal`; adding a `timedelta(days=n)` is ordinal
arithmetic, embedded here as iterated calendar successor/predecessor, which
agrees with ordinal arithmetic on valid dates.
-/

namespace CurrencyBootstrap

/-- Gregorian leap-year rule, as used by Python's `datetime.date`. -/
def isLeap (y : Int) : Bool :=
  y % 4 == 0 && (!(y % 100 == 0) || y % 400 == 0)

/-- Number of days in month `m` (1..12) of year `y`; 0 for out-of-range months. -/
def daysInMonth (y : Int) (m : Nat) : Nat :=
  match m with
  | 1 => 31
  | 2 => if isLeap y then 29 else 28
  | 3 => 31
  | 4 => 30
  | 5 => 31
  | 6 => 30
  | 7 => 31
  | 8 => 31
  | 9 => 30
  | 10 => 31
  | 11 => 30
  | 12 => 31
  | _ => 0

/-- A calendar date, mirroring Python `datetime.date(year, month, day)`. -/
structure Date where
  year : Int
  month : Nat
  day : Nat
deriving DecidableEq, Repr

/-- The well-formedness invariant Python's `date` constructor enforces. -/
def Date.Valid (d : Date) : Prop :=
  1 ≤ d.month ∧ d.month ≤ 12 ∧ 1 ≤ d.day ∧ d.day ≤ daysInMonth d.year d.month

instance (d : Date) : Decidable d.Valid := by
  unfold Date.Valid; infer_instance

/-- Days in months strictly before month `m` of year `y` (Python's
`_days_before_month` table, with the leap day folded in); 0 outside 1..13. -/
def daysBeforeMonth (y : Int) (m : Nat) : Nat :=
  match m with
  | 1 => 0
  | 2 => 31
  | 3 => if isLeap y then 60 else 59
  | 4 => if isLeap y then 91 else 90
  | 5 => if isLeap y then 121 else 120
  | 6 => if isLeap y then 152 else 151
  | 7 => if isLeap y then 182 else 181
  | 8 => if isLeap y then 213 else 212
  | 9 => if isLeap y then 244 else 243
  | 10 => if isLeap y then 274 else 273
  | 11 => if isLeap y then 305 else 304
  | 12 => if isLeap y then 335 else 334
  | 13 => if isLeap y then 366 else 365
  | _ => 0

/-- Days in years strictly before year `y` (Python `_days_before_year`),
with floor division extending it to all integer years. -/
def daysBeforeYear (y : Int) : Int :=
  365 * (y - 1) + (y - 1) / 4 - (y - 1) / 100 + (y - 1) / 400

/-- Proleptic-Gregorian ordinal of a date, mirroring `date.toordinal`
(so `toOrd ⟨1, 1, 1⟩ = 1`). -/
def toOrd (d : Date) : Int :=
  daysBeforeYear d.year + (daysBeforeMonth d.year d.month : Int) + (d.day : Int)

/-- The day after `d` (`d + timedelta(days=1)` on valid dates). -/
def Date.succ (d : Date) : Date :=
  if d.day < daysInMonth d.year d.month then ⟨d.year, d.month, d.day + 1⟩
  else if d.month < 12 then ⟨d.year, d.month + 1, 1⟩
  else ⟨d.year + 1, 1, 1⟩

/-- The day before `d` (`d - timedelta(days=1)` on valid dates). -/
def Date.pred (d : Date) : Date :=
  if 1 < d.day then ⟨d.year, d.month, d.day - 1⟩
  else if 1 < d.month then ⟨d.year, d.month - 1, daysInMonth d.year (d.month - 1)⟩
  else ⟨d.year - 1, 12, 31⟩

/-- `d + timedelta(days=n)`, for a possibly negative number of days. -/
def addDays (d : Date) (n : Int) : Date :=
  if 0 ≤ n then Date.succ^[n.toNat] d else Date.pred^[(-n).toNat] d

/-- Python's `<` on `date` values: lexicographic on (year, month, day). -/
def dateLt (a b : Date) : Prop :=
  a.year < b.year ∨
    (a.year = b.year ∧ (a.month < b.month ∨ (a.month = b.month ∧ a.day < b.day)))

/-- Python's `<=` on `date` values: lexicographic on (year, month, day). -/
def dateLe (a b : Date) : Prop :=
  a.year < b.year ∨
    (a.year = b.year ∧ (a.month < b.month ∨ (a.month = b.month ∧ a.day ≤ b.day)))

instance (a b : Date) : Decidable (dateLt a b) := by
  unfold dateLt; infer_instance

instance (a b : Date) : Decidable (dateLe a b) := by
  unfold dateLe; infer_instance

/-- Python `min(a, b)`: returns `b` exactly when `b < a`. -/
def dmin (a b : Date) : Date :=
  if dateLt b a then b else a

/-- First day of the month after `d`'s month, as computed inside `month_end`
(`date(d.year + 1, 1, 1)` when `d.month == 12`, else `date(d.year, d.month + 1, 1)`). -/
def firstNext (d : Date) : Date :=
  if d.month = 12 then ⟨d.year + 1, 1, 1⟩ else ⟨d.year, d.month + 1, 1⟩

/-- `month_end` from the script: first day of the next month, minus one day. -/
def month_end (d : Date) : Date :=
  (firstNext d).pred

/-- The `while cur <= end_date` loop of `split_into_month_aligned_chunks`,
made total with explicit fuel: `none` means the fuel ran out while the loop
guard still held (the Python loop would still be running). -/
def splitFuel (e : Date) (maxDays : Int) : Nat → Date → Option (List (Date × Date))
  | 0, cur => if dateLe cur e then none else some []
  | fuel + 1, cur =>
    if dateLe cur e then
      let me := month_end cur
      let candidate_end := dmin me e
      let max_by_days := addDays cur (maxDays - 1)
      let chunk_end := dmin candidate_end max_by_days
      match splitFuel e maxDays fuel (addDays chunk_end 1) with
      | none => none
      | some rest => some ((cur, chunk_end) :: rest)
    else some []

/-- Fuel sufficient for the loop whenever `maxDays ≥ 1` (proved below). -/
def fuelFor (s e : Date) : Nat :=
  (toOrd e + 1 - toOrd s).toNat + 1

/-- `split_into_month_aligned_chunks(start_date, end_date, max_days)`:
chunks are (start, end) date pairs (the script stores their ISO strings). -/
def split_into_month_aligned_chunks (s e : Date) (maxDays : Int) :
    Option (List (Date × Date)) :=
  splitFuel e maxDays (fuelFor s e) s

/-- The `chunk_end` computed by one iteration of the loop body:
`min(min(month_end(cur), end_date), cur + timedelta(days=max_days - 1))`. -/
def chunkEndOf (e : Date) (maxDays : Int) (cur : Date) : Date :=
  dmin (dmin (month_end cur) e) (addDays cur (maxDays - 1))

/-- Loop invariant relating the cursor to the emitted chunk list: each chunk
starts at the cursor, ends inside `[cursor, e]`, and the next cursor is the
chunk end plus one day; the loop stops exactly when the cursor passes `e`. -/
def ChainFrom (e : Date) : Date → List (Date × Date) → Prop
  | cur, [] => ¬ dateLe cur e
  | cur, c :: rest =>
      c.1 = cur ∧ c.2.Valid ∧ dateLe cur c.2 ∧ dateLe c.2 e ∧
        ChainFrom e (addDays c.2 1) rest

/-! ### JSON payloads and Python truthiness -/

/-- A JSON-like value, as produced by `r.json()`.  Numbers are modelled as
integers; the claims only depend on presence/emptiness of fields. -/
inductive JVal where
  | null : JVal
  | bool (b : Bool) : JVal
  | num (n : Int) : JVal
  | str (s : String) : JVal
  | arr (xs : List JVal) : JVal
  | obj (kvs : List (String × JVal)) : JVal

/-- Python truthiness of a JSON value (`None`, `False`, `0`, `""`, `[]`, `{}`
are falsy). -/
def truthy : JVal → Bool
  | .null => false
  | .bool b => b
  | .num n => n != 0
  | .str s => s != ""
  | .arr xs => !xs.isEmpty
  | .obj kvs => !kvs.isEmpty

/-- Python `key in body` for a dict body. -/
def hasKey (kvs : List (String × JVal)) (k : String) : Bool :=
  (kvs.lookup k).isSome

/-- Python `body.get(key)` for a dict body (`None` when absent). -/
def pyGet (kvs : List (String × JVal)) (k : String) : JVal :=
  (kvs.lookup k).getD .null

/-! ### `call_timeframe`: one attempt, and the retry loop -/

/-- What the environment does on one outbound request: either `requests.get`
raises (transport error/timeout), or it returns a status code and a body
(`none` when the body is not parseable JSON, making `r.json()` raise). -/
inductive AttemptOutcome where
  | exn : AttemptOutcome
  | resp (status : Nat) (body : Option JVal) : AttemptOutcome

/-- The failure classes one attempt of `call_timeframe` can raise.  We model
`requests.Response.raise_for_status` as raising exactly when the guard
`r.status_code >= 400` that wraps it holds. -/
inductive FetchCause where
  | transport : FetchCause
  | nonJson : FetchCause
  | successFalse (err : JVal) : FetchCause
  | apiError (err : JVal) : FetchCause
  | httpStatus (code : Nat) : FetchCause

/-- The body of one `try:` iteration of `call_timeframe`, in source order:
transport, JSON parse, `success is False`, truthy `error` field (both only
when the body is a dict), then HTTP status ≥ 400; otherwise return the body. -/
def evalAttempt : AttemptOutcome → Except FetchCause JVal
  | .exn => .error .transport
  | .resp status body? =>
    match body? with
    | none => .error .nonJson
    | some body =>
      match body with
      | .obj kvs =>
        match pyGet kvs "success" with
        | .bool false => .error (.successFalse (pyGet kvs "error"))
        | _ =>
          if hasKey kvs "error" && truthy (pyGet kvs "error") then
            .error (.apiError (pyGet kvs "error"))
          else if 400 ≤ status then .error (.httpStatus status)
          else .ok body
      | _ => if 400 ≤ status then .error (.httpStatus status) else .ok body

/-- `RETRY_COUNT = 3` from the script. -/
def RETRY_COUNT : Nat := 3

/-- The `for attempt in range(1, RETRY_COUNT + 1)` loop: `i` is the 0-based
attempt index, `remaining` the attempts left, `last` the last exception seen.
Returns the loop's result together with the number of requests issued. -/
def fetchFrom (oracle : Nat → AttemptOutcome) (i : Nat) :
    Nat → Option FetchCause → Except (Option FetchCause) JVal × Nat
  | 0, last => (.error last, 0)
  | n + 1, _ =>
    match evalAttempt (oracle i) with
    | .ok b => (.ok b, 1)
    | .error c =>
      let r := fetchFrom oracle (i + 1) n (some c)
      (r.1, r.2 + 1)

/-- `call_timeframe`, abstracted over the network environment `oracle`
(attempt index ↦ outcome).  `.error last` is the terminal
`RuntimeError(f"Failed to fetch timeframe ...: {last_exc}")`. -/
def call_timeframe (oracle : Nat → AttemptOutcome) :
    Except (Option FetchCause) JVal × Nat :=
  fetchFrom oracle 0 RETRY_COUNT none

/-! ### Response validation (the checks inlined in `main`'s loop) -/

inductive Classified where
  | usable : Classified
  | skippable : Classified
deriving DecidableEq

/-- `main`'s per-chunk payload checks: non-dict payloads are skipped, then
`("rates" not in data or not data.get("rates")) and ("quotes" not in data or
not data.get("quotes"))` skips, anything else is written. -/
def validatePayload : JVal → Classified
  | .obj kvs =>
    if (!hasKey kvs "rates" || !truthy (pyGet kvs "rates")) &&
        (!hasKey kvs "quotes" || !truthy (pyGet kvs "quotes")) then
      .skippable
    else .usable
  | _ => .skippable

/-! ### `upload_json_to_s3` and its destination guard -/

/-- String containment/suffix tests are modelled on character lists
(Python `in` on strings and `str.endswith`). -/
def matchesGuard (uri : String) : Prop :=
  "/currency-script/".data <:+: uri.data ∨
    "currency.py".data.isSuffixOf uri.data = true

instance (uri : String) : Decidable (matchesGuard uri) := by
  unfold matchesGuard; infer_instance

inductive WriteErr where
  | notS3 : WriteErr
  | selfOverwrite : WriteErr
  | storageFailure : WriteErr
deriving DecidableEq

/-- `upload_json_to_s3(obj, s3_uri)` with the storage layer abstracted as
`putOk` (does `boto3 upload_file` succeed for this uri?).  Returns the result
together with whether the storage put was invoked at all.  The temp-file
staging is local resource handling with no observable effect and is omitted. -/
def upload_json_to_s3 (obj : JVal) (s3_uri : String) (putOk : String → Bool) :
    Except WriteErr Unit × Bool :=
  if ¬ ("s3://".data.isPrefixOf s3_uri.data = true) then (.error .notS3, false)
  else if matchesGuard s3_uri then (.error .selfOverwrite, false)
  else if putOk s3_uri then (.ok (), true)
  else (.error .storageFailure, true)

/-! ### `main`'s chunk loop and exit behavior -/

/-- Left-pad the decimal representation of `n` with zeros to `w` digits
(Python `f"{n:0wd}"` for non-negative `n`). -/
def padNum (w : Nat) (n : Nat) : String :=
  let s := Nat.repr n
  String.mk (List.replicate (w - s.length) '0') ++ s

/-- `date.isoformat()`; run dates have positive years, `toNat` covers them. -/
def isoformat (d : Date) : String :=
  padNum 4 d.year.toNat ++ "-" ++ padNum 2 d.month ++ "-" ++ padNum 2 d.day

/-- Python `s.rstrip("/")`. -/
def rstripSlashes (s : String) : String :=
  String.mk (s.data.reverse.dropWhile (fun c => c = '/')).reverse

/-- The destination key `main` builds for a chunk:
`{s3_output.rstrip("/")}/year={YYYY}/month={MM}/timeframe_{start}_to_{end}.json`,
with year and month taken from the chunk's start date. -/
def mkTarget (s3Output : String) (c : Date × Date) : String :=
  rstripSlashes s3Output ++ "/year=" ++ padNum 4 c.1.year.toNat ++
    "/month=" ++ padNum 2 c.1.month ++ "/timeframe_" ++ isoformat c.1 ++
    "_to_" ++ isoformat c.2 ++ ".json"

/-- The run's environment: per-chunk attempt oracles and storage behavior. -/
structure RunEnv where
  fetch : Nat → Nat → AttemptOutcome
  putOk : String → Bool

/-- How a run ends abnormally. `noData` is the final
`RuntimeError("No raw JSON uploaded; ...")`; fetch and write errors
propagate out of `main` uncaught. -/
inductive RunErr where
  | fetchFailed (last : Option FetchCause) : RunErr
  | write (e : WriteErr) : RunErr
  | noData : RunErr

/-- `main`'s `for chunk in chunks` loop (chunk index `i`, flag `any_uploaded`):
fetch, validate (skip on failure), upload, recurse.  Returns the run result,
the list of destination keys successfully written, and how many chunks had
`call_timeframe` invoked on them. -/
def processChunks (env : RunEnv) (s3Output : String) :
    List (Date × Date) → Nat → Bool → Except RunErr Unit × List String × Nat
  | [], _, anyUploaded => (if anyUploaded then .ok () else .error .noData, [], 0)
  | c :: rest, i, anyUploaded =>
    match (call_timeframe (env.fetch i)).1 with
    | .error last => (.error (.fetchFailed last), [], 1)
    | .ok data =>
      match validatePayload data with
      | .skippable =>
        let r := processChunks env s3Output rest (i + 1) anyUploaded
        (r.1, r.2.1, r.2.2 + 1)
      | .usable =>
        let target := mkTarget s3Output c
        match (upload_json_to_s3 data target env.putOk).1 with
        | .error e => (.error (.write e), [], 1)
        | .ok _ =>
          let r := processChunks env s3Output rest (i + 1) true
          (r.1, target :: r.2.1, r.2.2 + 1)

/-- A resolved run configuration (dates already parsed, S3_OUTPUT present). -/
structure Config where
  sdate : Date
  edate : Date
  maxDays : Int
  s3Output : String

/-- `main` after argument resolution: swap the dates if needed, chunk, then
drive the loop with `any_uploaded = False`.  `none` means
`split_into_month_aligned_chunks` diverges (its loop never exits). -/
def mainModel (cfg : Config) (env : RunEnv) :
    Option (Except RunErr Unit × List String × Nat) :=
  let s := if dateLt cfg.edate cfg.sdate then cfg.edate else cfg.sdate
  let e := if dateLt cfg.edate cfg.sdate then cfg.sdate else cfg.edate
  match split_into_month_aligned_chunks s e cfg.maxDays with
  | none => none
  | some chunks => some (processChunks env cfg.s3Output chunks 0 false)

/-- The `__main__` wrapper: exit status 0 on success, 1 when `main` raises. -/
def exitCodeOf (r : Except RunErr Unit) : Nat :=
  match r with
  | .ok _ => 0
  | .error _ => 1

/-- Whether one chunk's processing lets the loop continue to the next chunk
(fetch succeeded, and the payload was either skipped or written). -/
def chunkNoAbort (env : RunEnv) (s3Output : String) (c : Date × Date) (i : Nat) : Prop :=
  ∃ d, (call_timeframe (env.fetch i)).1 = .ok d ∧
    (validatePayload d = .skippable ∨
      (validatePayload d = .usable ∧
        (upload_json_to_s3 d (mkTarget s3Output c) env.putOk).1 = .ok ()))

/-! ### Calendar facts -/

lemma isLeap_true_iff (y : Int) :
    isLeap y = true ↔ ((4:Int) ∣ y ∧ (¬ (100:Int) ∣ y ∨ (400:Int) ∣ y)) := by
  simp only [isLeap, Bool.and_eq_true, Bool.or_eq_true, Bool.not_eq_true', beq_iff_eq,
    beq_eq_false_iff_ne, ne_eq]
  omega

lemma daysInMonth_pos (y : Int) (m : Nat) (h1 : 1 ≤ m) (h12 : m ≤ 12) :
    1 ≤ daysInMonth y m := by
  interval_cases m <;> simp only [daysInMonth] <;> first
    | omega
    | (split <;> omega)

lemma daysBeforeMonth_succ (y : Int) (m : Nat) (h1 : 1 ≤ m) (h12 : m ≤ 12) :
    daysBeforeMonth y (m + 1) = daysBeforeMonth y m + daysInMonth y m := by
  interval_cases m <;> cases hB : isLeap y <;>
    simp [daysBeforeMonth, daysInMonth, hB]

lemma daysBeforeMonth_mono (y : Int) (m m2 : Nat) (h1 : 1 ≤ m) (h : m ≤ m2)
    (h13 : m2 ≤ 13) : daysBeforeMonth y m ≤ daysBeforeMonth y m2 := by
  have hm13 : m ≤ 13 := le_trans h h13
  interval_cases m <;> interval_cases m2 <;> cases hB : isLeap y <;>
    simp [daysBeforeMonth, hB]

lemma daysBeforeYear_succ (y : Int) :
    daysBeforeYear (y + 1) = daysBeforeYear y + 365 + (if isLeap y then 1 else 0) := by
  have hiff := isLeap_true_iff y
  by_cases h4 : (4:Int) ∣ y
  · by_cases h100 : (100:Int) ∣ y
    · by_cases h400 : (400:Int) ∣ y
      · have hL : isLeap y = true := hiff.mpr ⟨h4, Or.inr h400⟩
        simp only [daysBeforeYear, hL, if_true]
        omega
      · have hL : isLeap y = false := by
          cases hE : isLeap y
          · rfl
          · rcases hiff.mp hE with ⟨-, hc⟩
            rcases hc with hc | hc
            · exact absurd h100 hc
            · exact absurd hc h400
        simp only [daysBeforeYear, hL, Bool.false_eq_true, if_false]
        omega
    · have hL : isLeap y = true := hiff.mpr ⟨h4, Or.inl h100⟩
      have h400 : ¬ (400:Int) ∣ y := fun hc => h100 (dvd_trans ⟨4, by norm_num⟩ hc)
      simp only [daysBeforeYear, hL, if_true]
      omega
  · have hL : isLeap y = false := by
      cases hE : isLeap y
      · rfl
      · exact absurd (hiff.mp hE).1 h4
    have h100 : ¬ (100:Int) ∣ y := fun hc => h4 (dvd_trans ⟨25, by norm_num⟩ hc)
    have h400 : ¬ (400:Int) ∣ y := fun hc => h4 (dvd_trans ⟨100, by norm_num⟩ hc)
    simp only [daysBeforeYear, hL, Bool.false_eq_true, if_false]
    omega

lemma daysBeforeYear_add_nat (y : Int) (n : Nat) :
    daysBeforeYear y + 365 * n ≤ daysBeforeYear (y + n) := by
  induction n with
  | zero => simp
  | succ k ih =>
    have h := daysBeforeYear_succ (y + k)
    have hc : ((k + 1 : Nat) : Int) = (k : Int) + 1 := by push_cast; ring
    rw [hc, ← add_assoc]
    split at h <;> omega

lemma daysBeforeYear_mono (y y2 : Int) (h : y ≤ y2) :
    daysBeforeYear y ≤ daysBeforeYear y2 := by
  have hk : y2 = y + ((y2 - y).toNat : Int) := by omega
  have := daysBeforeYear_add_nat y (y2 - y).toNat
  rw [← hk] at this
  omega

lemma daysBeforeYear_succ_le (y y2 : Int) (h : y < y2) :
    daysBeforeYear y + 365 ≤ daysBeforeYear y2 := by
  have h1 := daysBeforeYear_succ y
  have h2 := daysBeforeYear_mono (y + 1) y2 (by omega)
  split at h1 <;> omega

/-- A valid date's ordinal stays below the next year's base ordinal. -/
lemma toOrd_lt_year_succ (d : Date) (h : d.Valid) :
    toOrd d ≤ daysBeforeYear (d.year + 1) := by
  obtain ⟨h1, h12, hd1, hdm⟩ := h
  have hstep := daysBeforeMonth_succ d.year d.month h1 h12
  have hmono := daysBeforeMonth_mono d.year (d.month + 1) 13 (by omega) (by omega) (by omega)
  have h13 : daysBeforeMonth d.year 13 = if isLeap d.year then 366 else 365 := rfl
  have hy := daysBeforeYear_succ d.year
  unfold toOrd
  split at h13 <;> split at hy <;> simp_all <;> omega

/-- A valid date's ordinal lies above its own year's base ordinal. -/
lemma toOrd_year_lt (d : Date) (h : d.Valid) :
    daysBeforeYear d.year + 1 ≤ toOrd d := by
  obtain ⟨h1, h12, hd1, hdm⟩ := h
  unfold toOrd
  have : (0:Int) ≤ (daysBeforeMonth d.year d.month : Int) := by positivity
  omega

/-! ### Successor, predecessor and the ordinal bridge -/

lemma Date.ext2 (a b : Date) (hy : a.year = b.year) (hm : a.month = b.month)
    (hd : a.day = b.day) : a = b := by
  cases a; cases b
  simp only [Date.mk.injEq]
  exact ⟨hy, hm, hd⟩

lemma Valid.succ {d : Date} (h : d.Valid) : d.succ.Valid := by
  obtain ⟨h1, h12, hd1, hdm⟩ := h
  unfold Date.succ Date.Valid
  split
  next hlt =>
    dsimp only
    omega
  next hnlt =>
    split
    next hm =>
      have hp : 1 ≤ daysInMonth d.year (d.month + 1) :=
        daysInMonth_pos _ _ (by omega) (by omega)
      dsimp only
      omega
    next hnm =>
      have hp : daysInMonth (d.year + 1) 1 = 31 := rfl
      dsimp only
      omega

lemma Valid.pred {d : Date} (h : d.Valid) : d.pred.Valid := by
  obtain ⟨h1, h12, hd1, hdm⟩ := h
  unfold Date.pred Date.Valid
  split
  next hlt =>
    dsimp only
    omega
  next hnlt =>
    split
    next hm =>
      have hp : 1 ≤ daysInMonth d.year (d.month - 1) :=
        daysInMonth_pos _ _ (by omega) (by omega)
      dsimp only
      omega
    next hnm =>
      have hp : daysInMonth (d.year - 1) 12 = 31 := rfl
      dsimp only
      omega

lemma succ_pred {d : Date} (h : d.Valid) : d.pred.succ = d := by
  obtain ⟨h1, h12, hd1, hdm⟩ := h
  have hpos := daysInMonth_pos d.year d.month h1 h12
  unfold Date.pred
  split
  next hday =>
    unfold Date.succ
    dsimp only
    rw [if_pos (by omega)]
    exact Date.ext2 _ _ rfl rfl (by dsimp only; omega)
  next hday =>
    split
    next hm =>
      unfold Date.succ
      dsimp only
      rw [if_neg (lt_irrefl _), if_pos (by omega)]
      exact Date.ext2 _ _ rfl (by dsimp only; omega) (by dsimp only; omega)
    next hm =>
      unfold Date.succ
      dsimp only
      have h31 : daysInMonth (d.year - 1) 12 = 31 := rfl
      rw [h31, if_neg (lt_irrefl _), if_neg (by omega)]
      exact Date.ext2 _ _ (by dsimp only; omega) (by dsimp only; omega)
        (by dsimp only; omega)

lemma dateLt_pred (d : Date) : dateLt d.pred d := by
  unfold Date.pred dateLt
  split
  next hday =>
    dsimp only
    omega
  next hday =>
    split
    next hm =>
      dsimp only
      omega
    next hm =>
      dsimp only
      omega

lemma toOrd_succ {d : Date} (h : d.Valid) : toOrd d.succ = toOrd d + 1 := by
  obtain ⟨h1, h12, hd1, hdm⟩ := h
  unfold Date.succ
  split
  next hlt =>
    unfold toOrd
    dsimp only
    push_cast
    omega
  next hnlt =>
    split
    next hmlt =>
      have hstep := daysBeforeMonth_succ d.year d.month h1 h12
      unfold toOrd
      dsimp only
      push_cast [hstep]
      omega
    next hnm =>
      have hm12 : d.month = 12 := by omega
      have h31 : daysInMonth d.year 12 = 31 := rfl
      have hdm31 : d.day = 31 := by rw [hm12] at hdm hnlt; omega
      have hy := daysBeforeYear_succ d.year
      have h12t : daysBeforeMonth d.year 12 = if isLeap d.year then 335 else 334 := rfl
      have h1t : daysBeforeMonth (d.year + 1) 1 = 0 := rfl
      unfold toOrd
      dsimp only
      rw [hm12, hdm31, h1t, h12t]
      cases hB : isLeap d.year
      · simp only [hB, Bool.false_eq_true, if_false] at hy ⊢
        push_cast
        omega
      · simp only [hB, if_true] at hy ⊢
        push_cast
        omega

lemma toOrd_pred {d : Date} (h : d.Valid) : toOrd d.pred = toOrd d - 1 := by
  have h2 := toOrd_succ (Valid.pred h)
  rw [succ_pred h] at h2
  omega

lemma valid_iter_succ (k : Nat) {d : Date} (h : d.Valid) : (Date.succ^[k] d).Valid := by
  induction k with
  | zero => simpa using h
  | succ n ih => rw [Function.iterate_succ_apply']; exact Valid.succ ih

lemma valid_iter_pred (k : Nat) {d : Date} (h : d.Valid) : (Date.pred^[k] d).Valid := by
  induction k with
  | zero => simpa using h
  | succ n ih => rw [Function.iterate_succ_apply']; exact Valid.pred ih

lemma toOrd_iter_succ (k : Nat) {d : Date} (h : d.Valid) :
    toOrd (Date.succ^[k] d) = toOrd d + k := by
  induction k with
  | zero => simp
  | succ n ih =>
    rw [Function.iterate_succ_apply', toOrd_succ (valid_iter_succ n h)]
    push_cast
    omega

lemma toOrd_iter_pred (k : Nat) {d : Date} (h : d.Valid) :
    toOrd (Date.pred^[k] d) = toOrd d - k := by
  induction k with
  | zero => simp
  | succ n ih =>
    rw [Function.iterate_succ_apply', toOrd_pred (valid_iter_pred n h)]
    push_cast
    omega

lemma addDays_valid {d : Date} (n : Int) (h : d.Valid) : (addDays d n).Valid := by
  unfold addDays
  split
  · exact valid_iter_succ _ h
  · exact valid_iter_pred _ h

lemma toOrd_addDays {d : Date} (n : Int) (h : d.Valid) :
    toOrd (addDays d n) = toOrd d + n := by
  unfold addDays
  split
  · rw [toOrd_iter_succ _ h]; omega
  · rw [toOrd_iter_pred _ h]; omega

lemma addDays_one (d : Date) : addDays d 1 = d.succ := by
  unfold addDays
  rw [if_pos (by norm_num)]
  norm_num

/-! ### The lexicographic date order and its agreement with ordinals -/

lemma dateLe_refl (a : Date) : dateLe a a := by
  unfold dateLe; omega

lemma dateLe_trans {a b c : Date} (h1 : dateLe a b) (h2 : dateLe b c) : dateLe a c := by
  unfold dateLe at *; omega

lemma dateLe_of_lt {a b : Date} (h : dateLt a b) : dateLe a b := by
  unfold dateLt dateLe at *; omega

lemma dateLt_of_not_le {a b : Date} (h : ¬ dateLe a b) : dateLt b a := by
  unfold dateLt dateLe at *; omega

lemma not_lt_of_dateLe {a b : Date} (h : dateLe a b) : ¬ dateLt b a := by
  unfold dateLt dateLe at *; omega

lemma dateLe_antisymm {a b : Date} (h1 : dateLe a b) (h2 : dateLe b a) : a = b := by
  unfold dateLe at *
  exact Date.ext2 a b (by omega) (by omega) (by omega)

lemma dateLt_or_eq_of_le {a b : Date} (h : dateLe a b) : dateLt a b ∨ a = b := by
  by_cases he : dateLt a b
  · exact Or.inl he
  · refine Or.inr (Date.ext2 a b ?_ ?_ ?_) <;> (unfold dateLe dateLt at *; omega)

/-- A date between two dates of the same year and month shares that year and month. -/
lemma month_sandwich {x : Date} {y : Int} {m d1 d2 : Nat}
    (h1 : dateLe ⟨y, m, d1⟩ x) (h2 : dateLe x ⟨y, m, d2⟩) :
    x.year = y ∧ x.month = m := by
  unfold dateLe at *
  dsimp only at h1 h2
  omega

lemma toOrd_lt_of_dateLt {a b : Date} (ha : a.Valid) (hb : b.Valid) (h : dateLt a b) :
    toOrd a < toOrd b := by
  obtain ⟨a1, a12, ad1, adm⟩ := ha
  obtain ⟨b1, b12, bd1, bdm⟩ := hb
  unfold dateLt at h
  rcases h with hy | ⟨hy, hm | ⟨hm, hd⟩⟩
  · have h1 : toOrd a ≤ daysBeforeYear (a.year + 1) :=
      toOrd_lt_year_succ a ⟨a1, a12, ad1, adm⟩
    have h2 : daysBeforeYear (a.year + 1) ≤ daysBeforeYear b.year :=
      daysBeforeYear_mono _ _ (by omega)
    have h3 : daysBeforeYear b.year + 1 ≤ toOrd b :=
      toOrd_year_lt b ⟨b1, b12, bd1, bdm⟩
    omega
  · have hstep := daysBeforeMonth_succ a.year a.month a1 a12
    have hmono := daysBeforeMonth_mono a.year (a.month + 1) b.month (by omega)
      (by omega) (by omega)
    rw [← hy] at bdm
    unfold toOrd
    rw [← hy]
    omega
  · unfold toOrd
    rw [← hy, ← hm]
    omega

lemma toOrd_le_of_dateLe {a b : Date} (ha : a.Valid) (hb : b.Valid) (h : dateLe a b) :
    toOrd a ≤ toOrd b := by
  rcases dateLt_or_eq_of_le h with h2 | h2
  · exact le_of_lt (toOrd_lt_of_dateLt ha hb h2)
  · rw [h2]

lemma dateLe_iff_ord {a b : Date} (ha : a.Valid) (hb : b.Valid) :
    dateLe a b ↔ toOrd a ≤ toOrd b := by
  constructor
  · exact toOrd_le_of_dateLe ha hb
  · intro h
    by_contra hn
    have := toOrd_lt_of_dateLt hb ha (dateLt_of_not_le hn)
    omega

lemma dateLt_iff_ord {a b : Date} (ha : a.Valid) (hb : b.Valid) :
    dateLt a b ↔ toOrd a < toOrd b := by
  constructor
  · exact toOrd_lt_of_dateLt ha hb
  · intro h
    by_cases hn : dateLt a b
    · exact hn
    · exfalso
      by_cases hle : dateLe a b
      · rcases dateLt_or_eq_of_le hle with h2 | h2
        · exact hn h2
        · rw [h2] at h; omega
      · have := toOrd_lt_of_dateLt hb ha (dateLt_of_not_le hle)
        omega

lemma toOrd_inj {a b : Date} (ha : a.Valid) (hb : b.Valid) (h : toOrd a = toOrd b) :
    a = b := by
  have h1 : dateLe a b := (dateLe_iff_ord ha hb).mpr (by omega)
  have h2 : dateLe b a := (dateLe_iff_ord hb ha).mpr (by omega)
  exact dateLe_antisymm h1 h2

/-! ### `min` on dates and `month_end` -/

lemma dmin_eq_or (a b : Date) : dmin a b = a ∨ dmin a b = b := by
  unfold dmin
  split
  · exact Or.inr rfl
  · exact Or.inl rfl

lemma dmin_le_left (a b : Date) : dateLe (dmin a b) a := by
  unfold dmin
  split
  next h => exact dateLe_of_lt h
  next h => exact dateLe_refl a

lemma dmin_le_right (a b : Date) : dateLe (dmin a b) b := by
  unfold dmin
  split
  next h => exact dateLe_refl b
  next h =>
    unfold dateLt dateLe at *
    omega

lemma dateLe_dmin {c a b : Date} (h1 : dateLe c a) (h2 : dateLe c b) :
    dateLe c (dmin a b) := by
  unfold dmin
  split <;> assumption

lemma dmin_valid {a b : Date} (ha : a.Valid) (hb : b.Valid) : (dmin a b).Valid := by
  rcases dmin_eq_or a b with h | h <;> rw [h] <;> assumption

lemma month_end_eq (d : Date) (h1 : 1 ≤ d.month) (h12 : d.month ≤ 12) :
    month_end d = ⟨d.year, d.month, daysInMonth d.year d.month⟩ := by
  unfold month_end firstNext
  by_cases hm : d.month = 12
  · rw [if_pos hm]
    unfold Date.pred
    dsimp only
    rw [if_neg (by omega), if_neg (by omega)]
    exact Date.ext2 _ _ (by dsimp only; omega) (by dsimp only; omega)
      (by dsimp only; rw [hm]; rfl)
  · rw [if_neg hm]
    unfold Date.pred
    dsimp only
    rw [if_neg (by omega), if_pos (by omega)]
    exact Date.ext2 _ _ rfl (by dsimp only; omega)
      (by dsimp only; rw [Nat.add_sub_cancel])

lemma month_end_valid {d : Date} (h : d.Valid) : (month_end d).Valid := by
  obtain ⟨h1, h12, hd1, hdm⟩ := h
  rw [month_end_eq d h1 h12]
  exact ⟨h1, h12, daysInMonth_pos d.year d.month h1 h12, le_refl _⟩

lemma dateLe_month_end {d : Date} (h : d.Valid) : dateLe d (month_end d) := by
  obtain ⟨h1, h12, hd1, hdm⟩ := h
  rw [month_end_eq d h1 h12]
  unfold dateLe
  dsimp only
  omega

/-! ### The chunking loop -/

lemma splitFuel_of_not_le {e : Date} {maxDays : Int} (fuel : Nat) {cur : Date}
    (h : ¬ dateLe cur e) : splitFuel e maxDays fuel cur = some [] := by
  cases fuel <;> simp [splitFuel, h]

lemma splitFuel_succ_of_le {e : Date} {maxDays : Int} {cur : Date} (fuel : Nat)
    (h : dateLe cur e) :
    splitFuel e maxDays (fuel + 1) cur =
      match splitFuel e maxDays fuel (addDays (chunkEndOf e maxDays cur) 1) with
      | none => none
      | some rest => some ((cur, chunkEndOf e maxDays cur) :: rest) := by
  simp only [splitFuel, if_pos h, chunkEndOf]

lemma dateLe_of_not_lt {a b : Date} (h : ¬ dateLt a b) : dateLe b a := by
  unfold dateLt dateLe at *; omega

lemma dmin_eq_left_of_le {a b : Date} (h : dateLe a b) : dmin a b = a := by
  unfold dmin
  split
  next hlt => exact (dateLe_antisymm (dateLe_of_lt hlt) h).symm ▸ rfl
  next hlt => rfl

lemma dmin_eq_right_of_le {a b : Date} (h : dateLe b a) : dmin a b = b := by
  unfold dmin
  split
  next hlt => rfl
  next hlt => exact dateLe_antisymm (dateLe_of_not_lt hlt) h

lemma chunkEnd_valid {e : Date} (maxDays : Int) {cur : Date} (hcv : cur.Valid)
    (he : e.Valid) : (chunkEndOf e maxDays cur).Valid :=
  dmin_valid (dmin_valid (month_end_valid hcv) he) (addDays_valid _ hcv)

lemma chunkEnd_le_e {e : Date} (maxDays : Int) (cur : Date) :
    dateLe (chunkEndOf e maxDays cur) e :=
  dateLe_trans (dmin_le_left _ _) (dmin_le_right (month_end cur) e)

lemma chunkEnd_le_month_end {e : Date} (maxDays : Int) (cur : Date) :
    dateLe (chunkEndOf e maxDays cur) (month_end cur) :=
  dateLe_trans (dmin_le_left _ _) (dmin_le_left (month_end cur) e)

lemma toOrd_chunkEnd_le {e : Date} {maxDays : Int} {cur : Date} (hcv : cur.Valid)
    (he : e.Valid) : toOrd (chunkEndOf e maxDays cur) ≤ toOrd cur + maxDays - 1 := by
  have h1 : dateLe (chunkEndOf e maxDays cur) (addDays cur (maxDays - 1)) :=
    dmin_le_right _ _
  have h2 := toOrd_le_of_dateLe (chunkEnd_valid maxDays hcv he)
    (addDays_valid _ hcv) h1
  rw [toOrd_addDays _ hcv] at h2
  omega

lemma cur_le_chunkEnd {e : Date} {maxDays : Int} {cur : Date} (hcv : cur.Valid)
    (he : e.Valid) (hle : dateLe cur e) (hmd : 1 ≤ maxDays) :
    dateLe cur (chunkEndOf e maxDays cur) := by
  refine dateLe_dmin (dateLe_dmin (dateLe_month_end hcv) hle) ?_
  rw [dateLe_iff_ord hcv (addDays_valid _ hcv), toOrd_addDays _ hcv]
  omega

lemma chunkEnd_same_month {e : Date} {maxDays : Int} {cur : Date} (hcv : cur.Valid)
    (he : e.Valid) (hle : dateLe cur e) (hmd : 1 ≤ maxDays) :
    (chunkEndOf e maxDays cur).year = cur.year ∧
      (chunkEndOf e maxDays cur).month = cur.month := by
  have h1 : dateLe cur (chunkEndOf e maxDays cur) := cur_le_chunkEnd hcv he hle hmd
  have h2 : dateLe (chunkEndOf e maxDays cur) (month_end cur) :=
    chunkEnd_le_month_end maxDays cur
  rw [month_end_eq cur hcv.1 hcv.2.1] at h2
  exact @month_sandwich (chunkEndOf e maxDays cur) cur.year cur.month cur.day
    (daysInMonth cur.year cur.month) h1 h2

lemma splitFuel_terminates {e : Date} {maxDays : Int} (hmd : 1 ≤ maxDays)
    (he : e.Valid) :
    ∀ fuel (cur : Date), cur.Valid → (toOrd e + 1 - toOrd cur).toNat ≤ fuel →
      ∃ L, splitFuel e maxDays fuel cur = some L := by
  intro fuel
  induction fuel with
  | zero =>
    intro cur hcv hm
    have hnle : ¬ dateLe cur e := by
      rw [dateLe_iff_ord hcv he]; omega
    exact ⟨[], by simp [splitFuel, hnle]⟩
  | succ n ih =>
    intro cur hcv hm
    by_cases hle : dateLe cur e
    · have hcE := @chunkEnd_valid e maxDays cur hcv he
      have h1 := toOrd_le_of_dateLe hcv hcE (cur_le_chunkEnd hcv he hle hmd)
      have h2 : toOrd (addDays (chunkEndOf e maxDays cur) 1) =
          toOrd (chunkEndOf e maxDays cur) + 1 := toOrd_addDays 1 hcE
      obtain ⟨L, hL⟩ := ih (addDays (chunkEndOf e maxDays cur) 1)
        (addDays_valid 1 hcE) (by omega)
      exact ⟨(cur, chunkEndOf e maxDays cur) :: L,
        by rw [splitFuel_succ_of_le n hle, hL]⟩
    · exact ⟨[], splitFuel_of_not_le _ hle⟩

lemma split_some {s e : Date} {maxDays : Int} (hs : s.Valid) (he : e.Valid)
    (hmd : 1 ≤ maxDays) :
    ∃ L, split_into_month_aligned_chunks s e maxDays = some L := by
  exact splitFuel_terminates hmd he (fuelFor s e) s hs (by unfold fuelFor; omega)

lemma splitFuel_chunk_props {e : Date} {maxDays : Int} (hmd : 1 ≤ maxDays)
    (he : e.Valid) :
    ∀ fuel (cur : Date), cur.Valid → ∀ L, splitFuel e maxDays fuel cur = some L →
      ∀ c ∈ L, c.1.Valid ∧ c.2.Valid ∧ dateLe c.1 c.2 ∧
        c.1.year = c.2.year ∧ c.1.month = c.2.month ∧
        toOrd c.2 + 1 ≤ toOrd c.1 + maxDays := by
  intro fuel
  induction fuel with
  | zero =>
    intro cur hcv L hL
    by_cases hle : dateLe cur e
    · simp [splitFuel, hle] at hL
    · rw [splitFuel_of_not_le 0 hle] at hL
      simp only [Option.some.injEq] at hL
      subst hL
      intro c hc
      exact absurd hc (List.not_mem_nil c)
  | succ n ih =>
    intro cur hcv L hL
    by_cases hle : dateLe cur e
    · rw [splitFuel_succ_of_le n hle] at hL
      cases hrec : splitFuel e maxDays n (addDays (chunkEndOf e maxDays cur) 1) with
      | none => rw [hrec] at hL; exact absurd hL (by simp)
      | some rest =>
        rw [hrec] at hL
        simp only [Option.some.injEq] at hL
        subst hL
        intro c hc
        rcases List.mem_cons.mp hc with hc | hc
        · subst hc
          dsimp only
          have hcE := @chunkEnd_valid e maxDays cur hcv he
          have hsm := chunkEnd_same_month hcv he hle hmd
          refine ⟨hcv, hcE, cur_le_chunkEnd hcv he hle hmd, hsm.1.symm, hsm.2.symm, ?_⟩
          have := @toOrd_chunkEnd_le e maxDays cur hcv he
          omega
        · exact ih (addDays (chunkEndOf e maxDays cur) 1)
            (addDays_valid 1 (chunkEnd_valid maxDays hcv he)) rest hrec c hc
    · rw [splitFuel_of_not_le _ hle] at hL
      simp only [Option.some.injEq] at hL
      subst hL
      intro c hc
      exact absurd hc (List.not_mem_nil c)

lemma splitFuel_chain {e : Date} {maxDays : Int} (hmd : 1 ≤ maxDays) (he : e.Valid) :
    ∀ fuel (cur : Date), cur.Valid → ∀ L, splitFuel e maxDays fuel cur = some L →
      ChainFrom e cur L := by
  intro fuel
  induction fuel with
  | zero =>
    intro cur hcv L hL
    by_cases hle : dateLe cur e
    · simp [splitFuel, hle] at hL
    · rw [splitFuel_of_not_le 0 hle] at hL
      simp only [Option.some.injEq] at hL
      subst hL
      exact hle
  | succ n ih =>
    intro cur hcv L hL
    by_cases hle : dateLe cur e
    · rw [splitFuel_succ_of_le n hle] at hL
      cases hrec : splitFuel e maxDays n (addDays (chunkEndOf e maxDays cur) 1) with
      | none => rw [hrec] at hL; exact absurd hL (by simp)
      | some rest =>
        rw [hrec] at hL
        simp only [Option.some.injEq] at hL
        subst hL
        exact ⟨rfl, chunkEnd_valid maxDays hcv he,
          cur_le_chunkEnd hcv he hle hmd, chunkEnd_le_e maxDays cur,
          ih _ (addDays_valid 1 (chunkEnd_valid maxDays hcv he)) rest hrec⟩
    · rw [splitFuel_of_not_le _ hle] at hL
      simp only [Option.some.injEq] at hL
      subst hL
      exact hle

lemma chain_first {e cur : Date} {L : List (Date × Date)} (h : ChainFrom e cur L)
    (hle : dateLe cur e) : ∃ b rest, L = (cur, b) :: rest := by
  cases L with
  | nil => exact absurd hle h
  | cons c rest =>
    refine ⟨c.2, rest, ?_⟩
    have h1 : c.1 = cur := h.1
    rw [← h1]

lemma chain_last {e : Date} (he : e.Valid) :
    ∀ (L : List (Date × Date)) (cur : Date), cur.Valid → ChainFrom e cur L →
      dateLe cur e → ∃ q, L.getLast? = some q ∧ q.2 = e := by
  intro L
  induction L with
  | nil => intro cur _ h hle; exact absurd hle h
  | cons c rest ih =>
    intro cur hcv h hle
    cases rest with
    | nil =>
      obtain ⟨hc1, hc2v, hcur2, hc2e, htail⟩ := h
      refine ⟨c, rfl, ?_⟩
      have hnle : ¬ dateLe (addDays c.2 1) e := htail
      rw [dateLe_iff_ord (addDays_valid 1 hc2v) he, toOrd_addDays 1 hc2v] at hnle
      have hord := toOrd_le_of_dateLe hc2v he hc2e
      exact toOrd_inj hc2v he (by omega)
    | cons c2 rest2 =>
      obtain ⟨hc1, hc2v, hcur2, hc2e, htail⟩ := h
      have hcur22 : dateLe (addDays c.2 1) c2.2 := htail.2.2.1
      have hc22e : dateLe c2.2 e := htail.2.2.2.1
      have hle2 : dateLe (addDays c.2 1) e := dateLe_trans hcur22 hc22e
      obtain ⟨q, hq, hqe⟩ := ih (addDays c.2 1) (addDays_valid 1 hc2v) htail hle2
      exact ⟨q, by rw [List.getLast?_cons_cons]; exact hq, hqe⟩

lemma chain_contiguous {e : Date} :
    ∀ (L : List (Date × Date)) (cur : Date), ChainFrom e cur L →
      List.Chain' (fun c c2 => c2.1 = addDays c.2 1) L := by
  intro L
  induction L with
  | nil => intro cur _; exact List.chain'_nil
  | cons c rest ih =>
    intro cur h
    obtain ⟨hc1, hc2v, hcur2, hc2e, htail⟩ := h
    cases rest with
    | nil => exact List.chain'_singleton c
    | cons c2 rest2 =>
      rw [List.chain'_cons]
      exact ⟨htail.1, ih (addDays c.2 1) htail⟩

lemma chain_mem_ord {e : Date} (he : e.Valid) :
    ∀ (L : List (Date × Date)) (cur : Date), cur.Valid → ChainFrom e cur L →
      ∀ c ∈ L, toOrd cur ≤ toOrd c.1 ∧ toOrd c.1 ≤ toOrd c.2 ∧ toOrd c.2 ≤ toOrd e := by
  intro L
  induction L with
  | nil => intro cur _ _ c hc; exact absurd hc (List.not_mem_nil c)
  | cons c0 rest ih =>
    intro cur hcv h c hc
    obtain ⟨hc1, hc2v, hcur2, hc2e, htail⟩ := h
    have hc1v : c0.1.Valid := hc1 ▸ hcv
    rcases List.mem_cons.mp hc with hc | hc
    · subst hc
      rw [hc1]
      exact ⟨le_refl _, toOrd_le_of_dateLe hcv hc2v hcur2,
        toOrd_le_of_dateLe hc2v he hc2e⟩
    · have hnext := ih (addDays c0.2 1) (addDays_valid 1 hc2v) htail c hc
      rw [toOrd_addDays 1 hc2v] at hnext
      have := toOrd_le_of_dateLe hcv hc2v hcur2
      exact ⟨by omega, hnext.2.1, hnext.2.2⟩

lemma chain_pairwise {e : Date} (he : e.Valid) :
    ∀ (L : List (Date × Date)) (cur : Date), cur.Valid → ChainFrom e cur L →
      List.Pairwise (fun c c2 => toOrd c.2 < toOrd c2.1) L := by
  intro L
  induction L with
  | nil => intro cur _ _; exact List.Pairwise.nil
  | cons c0 rest ih =>
    intro cur hcv h
    obtain ⟨hc1, hc2v, hcur2, hc2e, htail⟩ := h
    rw [List.pairwise_cons]
    constructor
    · intro c hc
      have := (chain_mem_ord he rest (addDays c0.2 1) (addDays_valid 1 hc2v) htail
        c hc).1
      rw [toOrd_addDays 1 hc2v] at this
      omega
    · exact ih (addDays c0.2 1) (addDays_valid 1 hc2v) htail

lemma chain_cover {e : Date} (he : e.Valid) :
    ∀ (L : List (Date × Date)) (cur : Date), cur.Valid → ChainFrom e cur L →
      ∀ n : Int, (toOrd cur ≤ n ∧ n ≤ toOrd e) ↔
        ∃ c ∈ L, toOrd c.1 ≤ n ∧ n ≤ toOrd c.2 := by
  intro L
  induction L with
  | nil =>
    intro cur hcv h n
    have : ¬ dateLe cur e := h
    rw [dateLe_iff_ord hcv he] at this
    simp only [List.not_mem_nil, false_and, exists_false, iff_false]
    omega
  | cons c0 rest ih =>
    intro cur hcv h n
    obtain ⟨hc1, hc2v, hcur2, hc2e, htail⟩ := h
    have hords := toOrd_le_of_dateLe hcv hc2v hcur2
    have horde := toOrd_le_of_dateLe hc2v he hc2e
    have hih := ih (addDays c0.2 1) (addDays_valid 1 hc2v) htail n
    rw [toOrd_addDays 1 hc2v] at hih
    constructor
    · rintro ⟨h1, h2⟩
      by_cases hn : n ≤ toOrd c0.2
      · exact ⟨c0, List.mem_cons_self c0 rest, by rw [hc1]; exact h1, hn⟩
      · obtain ⟨c, hcm, hp⟩ := hih.mp ⟨by omega, h2⟩
        exact ⟨c, List.mem_cons_of_mem c0 hcm, hp⟩
    · rintro ⟨c, hcm, hp1, hp2⟩
      rcases List.mem_cons.mp hcm with hc | hc
      · subst hc
        rw [hc1] at hp1
        omega
      · have := hih.mpr ⟨c, hc, hp1, hp2⟩
        omega

/-- Re-chunking a single-month, within-budget interval yields it back unchanged. -/
lemma split_single {cs ce : Date} {maxDays : Int} (hcs : cs.Valid) (hce : ce.Valid)
    (hle : dateLe cs ce) (hy : cs.year = ce.year) (hm : cs.month = ce.month)
    (hspan : toOrd ce + 1 ≤ toOrd cs + maxDays) :
    split_into_month_aligned_chunks cs ce maxDays = some [(cs, ce)] := by
  have hme : dateLe ce (month_end cs) := by
    rw [month_end_eq cs hcs.1 hcs.2.1]
    unfold dateLe
    dsimp only
    have hdm : ce.day ≤ daysInMonth cs.year cs.month := by
      rw [hy, hm]; exact hce.2.2.2
    omega
  have hmaxby : dateLe ce (addDays cs (maxDays - 1)) := by
    rw [dateLe_iff_ord hce (addDays_valid _ hcs), toOrd_addDays _ hcs]
    have := toOrd_le_of_dateLe hcs hce hle
    omega
  have hend : chunkEndOf ce maxDays cs = ce := by
    unfold chunkEndOf
    rw [dmin_eq_right_of_le hme, dmin_eq_left_of_le hmaxby]
  have hnle : ¬ dateLe (addDays ce 1) ce := by
    rw [dateLe_iff_ord (addDays_valid 1 hce) hce, toOrd_addDays 1 hce]
    omega
  unfold split_into_month_aligned_chunks fuelFor
  rw [splitFuel_succ_of_le _ hle, hend, splitFuel_of_not_le _ hnle]

/-- With `max_days ≤ 0` the cursor never passes the end date: the loop body
moves `chunk_end` strictly before the cursor, so `cur` never advances past `e`
and the `while` loop runs forever (here: every fuel bound is exhausted). -/
lemma splitFuel_nonpos_none {e : Date} {maxDays : Int} (hmd : maxDays ≤ 0)
    (he : e.Valid) :
    ∀ fuel (cur : Date), cur.Valid → dateLe cur e →
      splitFuel e maxDays fuel cur = none := by
  intro fuel
  induction fuel with
  | zero => intro cur hcv hle; simp [splitFuel, hle]
  | succ n ih =>
    intro cur hcv hle
    have hcE := @chunkEnd_valid e maxDays cur hcv he
    have hb := @toOrd_chunkEnd_le e maxDays cur hcv he
    have hle2 : dateLe (addDays (chunkEndOf e maxDays cur) 1) e := by
      rw [dateLe_iff_ord (addDays_valid 1 hcE) he, toOrd_addDays 1 hcE]
      have := (dateLe_iff_ord hcv he).mp hle
      omega
    rw [splitFuel_succ_of_le n hle, ih _ (addDays_valid 1 hcE) hle2]

/-! ### The retry loop and the chunk loop -/

lemma fetchFrom_count_le (oracle : Nat → AttemptOutcome) :
    ∀ n i last, (fetchFrom oracle i n last).2 ≤ n := by
  intro n
  induction n with
  | zero => intro i last; exact le_refl 0
  | succ k ih =>
    intro i last
    unfold fetchFrom
    cases evalAttempt (oracle i) with
    | ok b => simp
    | error c =>
      dsimp only
      have := ih (i + 1) (some c)
      omega

lemma processChunks_fetchfail_step (env : RunEnv) (s3Output : String)
    (c : Date × Date) (rest : List (Date × Date)) (i : Nat) (anyUploaded : Bool)
    {last : Option FetchCause}
    (hfetch : (call_timeframe (env.fetch i)).1 = .error last) :
    processChunks env s3Output (c :: rest) i anyUploaded =
      (.error (.fetchFailed last), [], 1) := by
  conv_lhs => rw [processChunks.eq_def]
  dsimp only
  rw [hfetch]

lemma processChunks_skip_step (env : RunEnv) (s3Output : String)
    (c : Date × Date) (rest : List (Date × Date)) (i : Nat) (anyUploaded : Bool)
    {d : JVal} (hfetch : (call_timeframe (env.fetch i)).1 = .ok d)
    (hval : validatePayload d = .skippable) :
    processChunks env s3Output (c :: rest) i anyUploaded =
      ((processChunks env s3Output rest (i + 1) anyUploaded).1,
       (processChunks env s3Output rest (i + 1) anyUploaded).2.1,
       (processChunks env s3Output rest (i + 1) anyUploaded).2.2 + 1) := by
  conv_lhs => rw [processChunks.eq_def]
  dsimp only
  rw [hfetch]
  dsimp only
  rw [hval]

lemma processChunks_write_step (env : RunEnv) (s3Output : String)
    (c : Date × Date) (rest : List (Date × Date)) (i : Nat) (anyUploaded : Bool)
    {d : JVal} (hfetch : (call_timeframe (env.fetch i)).1 = .ok d)
    (hval : validatePayload d = .usable)
    (hup : (upload_json_to_s3 d (mkTarget s3Output c) env.putOk).1 = .ok ()) :
    processChunks env s3Output (c :: rest) i anyUploaded =
      ((processChunks env s3Output rest (i + 1) true).1,
       mkTarget s3Output c :: (processChunks env s3Output rest (i + 1) true).2.1,
       (processChunks env s3Output rest (i + 1) true).2.2 + 1) := by
  conv_lhs => rw [processChunks.eq_def]
  dsimp only
  rw [hfetch]
  dsimp only
  rw [hval]
  dsimp only
  rw [hup]

lemma processChunks_writefail_step (env : RunEnv) (s3Output : String)
    (c : Date × Date) (rest : List (Date × Date)) (i : Nat) (anyUploaded : Bool)
    {d : JVal} {e : WriteErr} (hfetch : (call_timeframe (env.fetch i)).1 = .ok d)
    (hval : validatePayload d = .usable)
    (hup : (upload_json_to_s3 d (mkTarget s3Output c) env.putOk).1 = .error e) :
    processChunks env s3Output (c :: rest) i anyUploaded =
      (.error (.write e), [], 1) := by
  conv_lhs => rw [processChunks.eq_def]
  dsimp only
  rw [hfetch]
  dsimp only
  rw [hval]
  dsimp only
  rw [hup]

lemma processChunks_all_skip (env : RunEnv) (s3Output : String) :
    ∀ (chunks : List (Date × Date)) (i : Nat) (anyUploaded : Bool),
      (∀ j, j < chunks.length → ∃ d, (call_timeframe (env.fetch (i + j))).1 = .ok d ∧
        validatePayload d = .skippable) →
      processChunks env s3Output chunks i anyUploaded =
        (if anyUploaded then .ok () else .error .noData, [], chunks.length) := by
  intro chunks
  induction chunks with
  | nil => intro i anyUploaded _; rfl
  | cons c rest ih =>
    intro i anyUploaded h
    obtain ⟨d, hf, hv⟩ := h 0 (by simp)
    rw [Nat.add_zero] at hf
    rw [processChunks_skip_step env s3Output c rest i anyUploaded hf hv]
    have hrest : ∀ j, j < rest.length →
        ∃ d2, (call_timeframe (env.fetch (i + 1 + j))).1 = .ok d2 ∧
          validatePayload d2 = .skippable := by
      intro j hj
      have := h (j + 1) (by simp; omega)
      rwa [show i + (j + 1) = i + 1 + j by omega] at this
    rw [ih (i + 1) anyUploaded hrest]
    simp

lemma processChunks_abort (env : RunEnv) (s3Output : String) :
    ∀ (chunks : List (Date × Date)) (k i : Nat) (anyUploaded : Bool)
      (last : Option FetchCause), k < chunks.length →
      (∀ j c, j < k → chunks[j]? = some c → chunkNoAbort env s3Output c (i + j)) →
      (call_timeframe (env.fetch (i + k))).1 = .error last →
      (processChunks env s3Output chunks i anyUploaded).1 = .error (.fetchFailed last) ∧
      (processChunks env s3Output chunks i anyUploaded).2.2 = k + 1 ∧
      ∀ w ∈ (processChunks env s3Output chunks i anyUploaded).2.1,
        ∃ j c, j < k ∧ chunks[j]? = some c ∧ w = mkTarget s3Output c := by
  intro chunks
  induction chunks with
  | nil => intro k i anyUploaded last hk; exact absurd hk (by simp)
  | cons c rest ih =>
    intro k i anyUploaded last hk hbefore hfetch
    cases k with
    | zero =>
      rw [Nat.add_zero] at hfetch
      rw [processChunks_fetchfail_step env s3Output c rest i anyUploaded hfetch]
      refine ⟨rfl, rfl, ?_⟩
      intro w hw
      exact absurd hw (List.not_mem_nil w)
    | succ k2 =>
      obtain ⟨d, hf, hrest⟩ := hbefore 0 c (by omega) (by simp)
      rw [Nat.add_zero] at hf
      have hbefore2 : ∀ j c2, j < k2 → rest[j]? = some c2 →
          chunkNoAbort env s3Output c2 (i + 1 + j) := by
        intro j c2 hj hc2
        have := hbefore (j + 1) c2 (by omega) (by simpa using hc2)
        rwa [show i + (j + 1) = i + 1 + j by omega] at this
      have hfetch2 : (call_timeframe (env.fetch (i + 1 + k2))).1 = .error last := by
        rwa [show i + (k2 + 1) = i + 1 + k2 by omega] at hfetch
      have hk2 : k2 < rest.length := by simpa using hk
      rcases hrest with hskip | ⟨husable, hup⟩
      · rw [processChunks_skip_step env s3Output c rest i anyUploaded hf hskip]
        dsimp only
        obtain ⟨h1, h2, h3⟩ := ih k2 (i + 1) anyUploaded last hk2 hbefore2 hfetch2
        refine ⟨h1, by omega, ?_⟩
        intro w hw
        obtain ⟨j, c2, hj, hc2, hwt⟩ := h3 w hw
        exact ⟨j + 1, c2, by omega, by simpa using hc2, hwt⟩
      · rw [processChunks_write_step env s3Output c rest i anyUploaded hf husable hup]
        dsimp only
        obtain ⟨h1, h2, h3⟩ := ih k2 (i + 1) true last hk2 hbefore2 hfetch2
        refine ⟨h1, by omega, ?_⟩
        intro w hw
        rcases List.mem_cons.mp hw with hw | hw
        · exact ⟨0, c, by omega, by simp, hw⟩
        · obtain ⟨j, c2, hj, hc2, hwt⟩ := h3 w hw
          exact ⟨j + 1, c2, by omega, by simpa using hc2, hwt⟩

lemma fetchFrom_zero (oracle : Nat → AttemptOutcome) (i : Nat) (last : Option FetchCause) :
    fetchFrom oracle i 0 last = (.error last, 0) := rfl

lemma fetchFrom_succ (oracle : Nat → AttemptOutcome) (i n : Nat) (last : Option FetchCause) :
    fetchFrom oracle i (n + 1) last =
      match evalAttempt (oracle i) with
      | .ok b => (.ok b, 1)
      | .error c =>
        ((fetchFrom oracle (i + 1) n (some c)).1,
         (fetchFrom oracle (i + 1) n (some c)).2 + 1) := rfl

lemma fetchFrom_all_fail (oracle : Nat → AttemptOutcome) :
    ∀ n i last, 1 ≤ n →
      (∀ j, j < n → ∃ c, evalAttempt (oracle (i + j)) = .error c) →
      ∃ c, evalAttempt (oracle (i + (n - 1))) = .error c ∧
        fetchFrom oracle i n last = (.error (some c), n) := by
  intro n
  induction n with
  | zero => intro i last h1; omega
  | succ m ih =>
    intro i last h1 hall
    obtain ⟨c0, hc0⟩ := hall 0 (by omega)
    rw [Nat.add_zero] at hc0
    cases m with
    | zero =>
      refine ⟨c0, by simpa using hc0, ?_⟩
      rw [fetchFrom_succ, hc0]
      rfl
    | succ m2 =>
      have hshift : ∀ j, j < m2 + 1 → ∃ c, evalAttempt (oracle (i + 1 + j)) = .error c := by
        intro j hj
        have := hall (j + 1) (by omega)
        rwa [show i + (j + 1) = i + 1 + j by omega] at this
      obtain ⟨c, hc, hrec⟩ := ih (i + 1) (some c0) (by omega) hshift
      refine ⟨c, ?_, ?_⟩
      · rwa [show i + 1 + (m2 + 1 - 1) = i + (m2 + 1 + 1 - 1) by omega] at hc
      · rw [fetchFrom_succ, hc0]
        dsimp only
        rw [hrec]

lemma fetchFrom_first_ok (oracle : Nat → AttemptOutcome) :
    ∀ k n i last b, k < n →
      (∀ j, j < k → ∃ c, evalAttempt (oracle (i + j)) = .error c) →
      evalAttempt (oracle (i + k)) = .ok b →
      fetchFrom oracle i n last = (.ok b, k + 1) := by
  intro k
  induction k with
  | zero =>
    intro n i last b hk hbefore hok
    rw [Nat.add_zero] at hok
    cases n with
    | zero => omega
    | succ m => rw [fetchFrom_succ, hok]
  | succ k2 ih =>
    intro n i last b hk hbefore hok
    obtain ⟨c0, hc0⟩ := hbefore 0 (by omega)
    rw [Nat.add_zero] at hc0
    cases n with
    | zero => omega
    | succ m =>
      rw [fetchFrom_succ, hc0]
      dsimp only
      have hres := ih m (i + 1) (some c0) b (by omega)
        (by
          intro j hj
          have := hbefore (j + 1) (by omega)
          rwa [show i + (j + 1) = i + 1 + j by omega] at this)
        (by rwa [show i + (k2 + 1) = i + 1 + k2 by omega] at hok)
      rw [hres]

/-! ### Claims -/

/-- C1: for every valid start date `s`, end date `e` with `s ≤ e`, and
`max_days ≥ 1`, the chunk sequence returned by
`split_into_month_aligned_chunks(s, e, max_days)` is non-empty, its first
chunk starts at `s`, its last chunk ends at `e`, it is contiguous (each
chunk's start is the previous chunk's end plus one day), ordered and
non-overlapping, and the union of the chunks as closed intervals is exactly
`[s, e]` (stated on date ordinals). -/
theorem claim_C1 (s e : Date) (maxDays : Int) (hs : s.Valid) (he : e.Valid)
    (hse : dateLe s e) (hmd : 1 ≤ maxDays) :
    ∃ L, split_into_month_aligned_chunks s e maxDays = some L ∧
      L ≠ [] ∧
      (∃ b rest, L = (s, b) :: rest) ∧
      (∃ q, L.getLast? = some q ∧ q.2 = e) ∧
      List.Chain' (fun c c2 => c2.1 = addDays c.2 1) L ∧
      List.Pairwise (fun c c2 => toOrd c.2 < toOrd c2.1) L ∧
      (∀ c ∈ L, dateLe c.1 c.2) ∧
      (∀ n : Int, (toOrd s ≤ n ∧ n ≤ toOrd e) ↔
        ∃ c ∈ L, toOrd c.1 ≤ n ∧ n ≤ toOrd c.2) := by
  obtain ⟨L, hL⟩ := split_some hs he hmd
  have hchain := splitFuel_chain hmd he (fuelFor s e) s hs L hL
  have hprops := splitFuel_chunk_props hmd he (fuelFor s e) s hs L hL
  obtain ⟨b, rest, hfirst⟩ := chain_first hchain hse
  exact ⟨L, hL, by rw [hfirst]; exact List.cons_ne_nil _ _, ⟨b, rest, hfirst⟩,
    chain_last he L s hs hchain hse,
    chain_contiguous L s hchain,
    chain_pairwise he L s hs hchain,
    fun c hc => (hprops c hc).2.2.1,
    chain_cover he L s hs hchain⟩

theorem claim_C1_witness :
    ∃ L, split_into_month_aligned_chunks ⟨2025, 5, 15⟩ ⟨2025, 6, 10⟩ 365 = some L ∧
      L ≠ [] := by
  obtain ⟨L, h1, h2, -⟩ := claim_C1 ⟨2025, 5, 15⟩ ⟨2025, 6, 10⟩ 365
    (by decide) (by decide) (by decide) (by decide)
  exact ⟨L, h1, h2⟩

/-- C2: for every valid start date `s`, end date `e` with `s ≤ e`, and
`max_days ≥ 1`, every chunk emitted by `split_into_month_aligned_chunks` has
start and end in the same calendar year and month, and spans at most
`max_days` days (end − start + 1 on ordinals). -/
theorem claim_C2 (s e : Date) (maxDays : Int) (hs : s.Valid) (he : e.Valid)
    (hse : dateLe s e) (hmd : 1 ≤ maxDays) :
    ∀ L, split_into_month_aligned_chunks s e maxDays = some L →
      ∀ c ∈ L, c.1.year = c.2.year ∧ c.1.month = c.2.month ∧
        toOrd c.2 - toOrd c.1 + 1 ≤ maxDays := by
  intro L hL c hc
  have h := splitFuel_chunk_props hmd he (fuelFor s e) s hs L hL c hc
  refine ⟨h.2.2.2.1, h.2.2.2.2.1, ?_⟩
  have := h.2.2.2.2.2
  omega

theorem claim_C2_witness :
    (⟨2025, 1, 1⟩ : Date).year = (⟨2025, 1, 5⟩ : Date).year ∧
    (⟨2025, 1, 1⟩ : Date).month = (⟨2025, 1, 5⟩ : Date).month ∧
    toOrd ⟨2025, 1, 5⟩ - toOrd ⟨2025, 1, 1⟩ + 1 ≤ 5 :=
  claim_C2 ⟨2025, 1, 1⟩ ⟨2025, 1, 10⟩ 5 (by decide) (by decide) (by decide)
    (by decide) [(⟨2025, 1, 1⟩, ⟨2025, 1, 5⟩), (⟨2025, 1, 6⟩, ⟨2025, 1, 10⟩)]
    (by decide) (⟨2025, 1, 1⟩, ⟨2025, 1, 5⟩) (by decide)

/-- C3: `call_timeframe` makes at most `RETRY_COUNT = 3` outbound requests
(one per attempt); any attempt failing with a transport error, JSON parse
failure, API `success=false`, truthy `error` field, or HTTP status ≥ 400
(the exhaustive failure classes of `evalAttempt`) is retried, a later
successful attempt returns its body; and when all attempts fail the loop
raises a terminal failure carrying the cause observed on the last attempt. -/
theorem claim_C3 (oracle : Nat → AttemptOutcome) :
    (call_timeframe oracle).2 ≤ RETRY_COUNT ∧
    ((∀ i, i < RETRY_COUNT → ∃ c, evalAttempt (oracle i) = .error c) →
      ∃ c, evalAttempt (oracle 2) = .error c ∧
        call_timeframe oracle = (.error (some c), RETRY_COUNT)) ∧
    (∀ i b, i < RETRY_COUNT →
      (∀ j, j < i → ∃ c, evalAttempt (oracle j) = .error c) →
      evalAttempt (oracle i) = .ok b → call_timeframe oracle = (.ok b, i + 1)) := by
  refine ⟨fetchFrom_count_le oracle RETRY_COUNT 0 none, ?_, ?_⟩
  · intro h
    obtain ⟨c, hc, heq⟩ := fetchFrom_all_fail oracle RETRY_COUNT 0 none
      (by norm_num [RETRY_COUNT]) (by intro j hj; simpa using h j hj)
    exact ⟨c, by simpa using hc, heq⟩
  · intro i b hi hbefore hok
    exact fetchFrom_first_ok oracle i RETRY_COUNT 0 none b hi
      (by intro j hj; simpa using hbefore j hj) (by simpa using hok)

theorem claim_C3_witness :
    call_timeframe (fun _ => .exn) = (.error (some .transport), 3) := by
  obtain ⟨c, hc, heq⟩ := (claim_C3 (fun _ => .exn)).2.1 (fun i _ => ⟨.transport, rfl⟩)
  have hct : (Except.error FetchCause.transport : Except FetchCause JVal) =
      .error c := hc
  have : c = .transport := (Except.error.inj hct).symm
  rw [this] at heq
  exact heq

/-- C4: if every chunk's fetch succeeds and every payload is classified
skippable (so `any_uploaded` stays false and no fetch or write error is ever
raised), the run fails with the `NoDataIngested` error, writes zero objects,
fetches every chunk, and exits with status 1 ≠ 0. -/
theorem claim_C4 (env : RunEnv) (s3Output : String) (chunks : List (Date × Date))
    (h : ∀ j, j < chunks.length →
      ∃ d, (call_timeframe (env.fetch j)).1 = .ok d ∧
        validatePayload d = .skippable) :
    (processChunks env s3Output chunks 0 false).1 = .error .noData ∧
    (processChunks env s3Output chunks 0 false).2.1 = [] ∧
    (processChunks env s3Output chunks 0 false).2.2 = chunks.length ∧
    exitCodeOf (processChunks env s3Output chunks 0 false).1 = 1 := by
  have hall := processChunks_all_skip env s3Output chunks 0 false
    (by intro j hj; simpa using h j hj)
  rw [hall]
  exact ⟨rfl, rfl, rfl, rfl⟩

theorem claim_C4_witness :
    (processChunks ⟨fun _ _ => .resp 200 (some (.obj [])), fun _ => true⟩
        "s3://b/raw" [(⟨2025, 5, 1⟩, ⟨2025, 5, 31⟩)] 0 false).1 =
      .error .noData ∧
    (processChunks ⟨fun _ _ => .resp 200 (some (.obj [])), fun _ => true⟩
        "s3://b/raw" [(⟨2025, 5, 1⟩, ⟨2025, 5, 31⟩)] 0 false).2.1 = [] := by
  obtain ⟨h1, h2, -, -⟩ := claim_C4
    ⟨fun _ _ => .resp 200 (some (.obj [])), fun _ => true⟩ "s3://b/raw"
    [(⟨2025, 5, 1⟩, ⟨2025, 5, 31⟩)] (fun j _ => ⟨.obj [], rfl, rfl⟩)
  exact ⟨h1, h2⟩

/-- C5: if every chunk before index `k` is processed without aborting and the
fetch of chunk `k` ends in the terminal retry-exhaustion error, the run
aborts with that `FetchFailed` error and exit status 1: exactly the chunks up
to and including `k` are fetched (no later chunk is fetched, validated or
written), and every object written belongs to a chunk strictly before `k`
(none for the failing chunk). -/
theorem claim_C5 (env : RunEnv) (s3Output : String) (chunks : List (Date × Date))
    (k : Nat) (last : Option FetchCause) (hk : k < chunks.length)
    (hbefore : ∀ j c, j < k → chunks[j]? = some c → chunkNoAbort env s3Output c j)
    (hfail : (call_timeframe (env.fetch k)).1 = .error last) :
    (processChunks env s3Output chunks 0 false).1 = .error (.fetchFailed last) ∧
    exitCodeOf (processChunks env s3Output chunks 0 false).1 = 1 ∧
    (processChunks env s3Output chunks 0 false).2.2 = k + 1 ∧
    ∀ w ∈ (processChunks env s3Output chunks 0 false).2.1,
      ∃ j c, j < k ∧ chunks[j]? = some c ∧ w = mkTarget s3Output c := by
  have h := processChunks_abort env s3Output chunks k 0 false last hk
    (by intro j c hj hc; simpa using hbefore j c hj hc) (by simpa using hfail)
  exact ⟨h.1, by rw [h.1]; rfl, h.2.1, h.2.2⟩

theorem claim_C5_witness :
    (processChunks ⟨fun _ _ => .exn, fun _ => true⟩ "s3://b/raw"
        [(⟨2025, 5, 1⟩, ⟨2025, 5, 31⟩)] 0 false).1 =
      .error (.fetchFailed (some .transport)) ∧
    (processChunks ⟨fun _ _ => .exn, fun _ => true⟩ "s3://b/raw"
        [(⟨2025, 5, 1⟩, ⟨2025, 5, 31⟩)] 0 false).2.2 = 1 := by
  obtain ⟨h1, -, h3, -⟩ := claim_C5 ⟨fun _ _ => .exn, fun _ => true⟩ "s3://b/raw"
    [(⟨2025, 5, 1⟩, ⟨2025, 5, 31⟩)] 0 (some .transport) (by simp)
    (fun j c hj _ => absurd hj (Nat.not_lt_zero j)) rfl
  exact ⟨h1, h3⟩

/-- C6: the code has no validation of `max_days` at all: with `max_days = 0`
(and any start ≤ end after the swap) `split_into_month_aligned_chunks` never
terminates — every fuel bound is exhausted and `main` diverges before any
fetch — instead of rejecting the configuration with an `InvalidConfiguration`
error as the specification requires. -/
theorem claim_C6 (env : RunEnv) :
    (∀ fuel, splitFuel ⟨2025, 5, 1⟩ 0 fuel ⟨2025, 5, 1⟩ = none) ∧
    mainModel ⟨⟨2025, 5, 1⟩, ⟨2025, 5, 1⟩, 0, "s3://bucket/raw/"⟩ env = none := by
  constructor
  · intro fuel
    exact splitFuel_nonpos_none (by norm_num) (by decide) fuel ⟨2025, 5, 1⟩
      (by decide) (by decide)
  · rfl

theorem claim_C6_witness :
    (∀ fuel, splitFuel ⟨2025, 5, 1⟩ 0 fuel ⟨2025, 5, 1⟩ = none) ∧
    mainModel ⟨⟨2025, 5, 1⟩, ⟨2025, 5, 1⟩, 0, "s3://bucket/raw/"⟩
      ⟨fun _ _ => .exn, fun _ => false⟩ = none :=
  claim_C6 ⟨fun _ _ => .exn, fun _ => false⟩

/-- C7: the validation inlined in `main` classifies any non-mapping payload
as skippable; any mapping with a present, non-empty (truthy) `rates` field as
usable; any mapping with neither a truthy `rates` nor a truthy `quotes` field
as skippable; and a skippable chunk is not written — the loop proceeds to the
next chunk with `any_uploaded` unchanged. -/
theorem claim_C7 :
    (∀ v : JVal, (∀ kvs, v ≠ .obj kvs) → validatePayload v = .skippable) ∧
    (∀ kvs, hasKey kvs "rates" = true → truthy (pyGet kvs "rates") = true →
      validatePayload (.obj kvs) = .usable) ∧
    (∀ kvs, (hasKey kvs "rates" = false ∨ truthy (pyGet kvs "rates") = false) →
      (hasKey kvs "quotes" = false ∨ truthy (pyGet kvs "quotes") = false) →
      validatePayload (.obj kvs) = .skippable) ∧
    (∀ (env : RunEnv) (s3Output : String) (c : Date × Date) rest i anyUploaded d,
      (call_timeframe (env.fetch i)).1 = .ok d → validatePayload d = .skippable →
      processChunks env s3Output (c :: rest) i anyUploaded =
        ((processChunks env s3Output rest (i + 1) anyUploaded).1,
         (processChunks env s3Output rest (i + 1) anyUploaded).2.1,
         (processChunks env s3Output rest (i + 1) anyUploaded).2.2 + 1)) := by
  refine ⟨?_, ?_, ?_, ?_⟩
  · intro v hv
    cases v with
    | obj kvs => exact absurd rfl (hv kvs)
    | null => rfl
    | bool b => rfl
    | num n => rfl
    | str s => rfl
    | arr xs => rfl
  · intro kvs h1 h2
    unfold validatePayload
    dsimp only
    rw [h1, h2]
    rfl
  · intro kvs h1 h2
    unfold validatePayload
    dsimp only
    rcases h1 with h1 | h1 <;> rcases h2 with h2 | h2 <;> rw [h1, h2] <;>
      cases hasKey kvs "rates" <;> cases truthy (pyGet kvs "rates") <;>
      cases hasKey kvs "quotes" <;> cases truthy (pyGet kvs "quotes") <;>
      first | rfl | (simp_all)
  · intro env s3Output c rest i anyUploaded d hf hv
    exact processChunks_skip_step env s3Output c rest i anyUploaded hf hv

theorem claim_C7_witness :
    validatePayload (.arr [.num 1]) = .skippable ∧
    validatePayload (.obj [("rates", .num 1)]) = .usable ∧
    validatePayload (.obj [("success", .bool true)]) = .skippable :=
  ⟨claim_C7.1 (.arr [.num 1]) (fun kvs h => JVal.noConfusion h),
   claim_C7.2.1 [("rates", .num 1)] rfl rfl,
   claim_C7.2.2.1 [("success", .bool true)] (Or.inl rfl) (Or.inl rfl)⟩

/-- C8 (amended): for every destination key that starts with `s3://` and
matches the self-overwrite guard pattern (contains `/currency-script/` or
ends in `currency.py`), `upload_json_to_s3` raises the guard error without
invoking the storage put; and any write error surfacing from a chunk's upload
aborts the run with a non-zero exit status (never silently ignored).  Keys
matching the pattern but not starting with `s3://` hit the `ValueError`
branch first instead (see the counterexample). -/
theorem claim_C8 :
    (∀ (obj : JVal) (uri : String) (putOk : String → Bool),
      "s3://".data.isPrefixOf uri.data = true → matchesGuard uri →
      upload_json_to_s3 obj uri putOk = (.error .selfOverwrite, false)) ∧
    (∀ (env : RunEnv) (s3Output : String) (c : Date × Date) rest i anyUploaded
      (d : JVal) (e : WriteErr),
      (call_timeframe (env.fetch i)).1 = .ok d → validatePayload d = .usable →
      (upload_json_to_s3 d (mkTarget s3Output c) env.putOk).1 = .error e →
      (processChunks env s3Output (c :: rest) i anyUploaded).1 =
        .error (.write e) ∧
      exitCodeOf (processChunks env s3Output (c :: rest) i anyUploaded).1 = 1) := by
  constructor
  · intro obj uri putOk hpre hguard
    unfold upload_json_to_s3
    rw [if_neg (not_not_intro hpre), if_pos hguard]
  · intro env s3Output c rest i anyUploaded d e hf hv hup
    rw [processChunks_writefail_step env s3Output c rest i anyUploaded hf hv hup]
    exact ⟨rfl, rfl⟩

theorem claim_C8_witness :
    upload_json_to_s3 (.obj []) "s3://b/currency-script/x.json" (fun _ => true) =
      (.error .selfOverwrite, false) :=
  claim_C8.1 (.obj []) "s3://b/currency-script/x.json" (fun _ => true)
    (by decide) (Or.inl (by decide))

/-- C8 counterexample to the claim as stated: the key `"currency.py"` matches
the guard pattern, yet `upload_json_to_s3` raises the `ValueError` ("S3 path
must start with s3://") branch, not the guard's `WriteRejected` error (the
`s3://` prefix check runs first); the storage put is still not invoked. -/
theorem claim_C8_counterexample :
    matchesGuard "currency.py" ∧
    (upload_json_to_s3 (.obj []) "currency.py" (fun _ => true)).1 =
      .error .notS3 ∧
    (upload_json_to_s3 (.obj []) "currency.py" (fun _ => true)).1 ≠
      .error .selfOverwrite ∧
    (upload_json_to_s3 (.obj []) "currency.py" (fun _ => true)).2 = false := by
  refine ⟨Or.inr (by decide), rfl, ?_, rfl⟩
  intro h
  have h2 : (Except.error WriteErr.notS3 : Except WriteErr Unit) =
      .error .selfOverwrite := h
  exact WriteErr.noConfusion (Except.error.inj h2)

/-- C9: chunking is idempotent as a single-chunk fixed point: every chunk
`(cs, ce)` emitted by `split_into_month_aligned_chunks(s, e, max_days)` with
`max_days ≥ 1` satisfies
`split_into_month_aligned_chunks(cs, ce, max_days) = [(cs, ce)]`. -/
theorem claim_C9 (s e : Date) (maxDays : Int) (hs : s.Valid) (he : e.Valid)
    (hse : dateLe s e) (hmd : 1 ≤ maxDays) :
    ∀ L, split_into_month_aligned_chunks s e maxDays = some L →
      ∀ c ∈ L, split_into_month_aligned_chunks c.1 c.2 maxDays = some [c] := by
  intro L hL c hc
  obtain ⟨h1, h2, h3, h4, h5, h6⟩ :=
    splitFuel_chunk_props hmd he (fuelFor s e) s hs L hL c hc
  have hres := @split_single c.1 c.2 maxDays h1 h2 h3 h4 h5 (by omega)
  rw [Prod.mk.eta] at hres
  exact hres

theorem claim_C9_witness :
    split_into_month_aligned_chunks ⟨2025, 1, 1⟩ ⟨2025, 1, 5⟩ 5 =
      some [(⟨2025, 1, 1⟩, ⟨2025, 1, 5⟩)] :=
  claim_C9 ⟨2025, 1, 1⟩ ⟨2025, 1, 10⟩ 5 (by decide) (by decide) (by decide)
    (by decide) [(⟨2025, 1, 1⟩, ⟨2025, 1, 5⟩), (⟨2025, 1, 6⟩, ⟨2025, 1, 10⟩)]
    (by decide) (⟨2025, 1, 1⟩, ⟨2025, 1, 5⟩) (by decide)

/-- C10: for valid dates `s ≤ e`, the chunking loop terminates whenever
`max_days ≥ 1` (the cursor strictly advances), and for `max_days ≤ 0` it
never terminates: the fuel-indexed loop returns `none` for every fuel bound,
because `chunk_end` falls before the cursor and the cursor never advances
past it. -/
theorem claim_C10 (s e : Date) (maxDays : Int) (hs : s.Valid) (he : e.Valid)
    (hse : dateLe s e) :
    (1 ≤ maxDays → ∃ L, split_into_month_aligned_chunks s e maxDays = some L) ∧
    (maxDays ≤ 0 → ∀ fuel, splitFuel e maxDays fuel s = none) := by
  constructor
  · intro hmd
    exact split_some hs he hmd
  · intro hmd fuel
    exact splitFuel_nonpos_none hmd he fuel s hs hse

theorem claim_C10_witness :
    ((1:Int) ≤ 0 →
      ∃ L, split_into_month_aligned_chunks ⟨2025, 5, 1⟩ ⟨2025, 5, 2⟩ 0 = some L) ∧
    ((0:Int) ≤ 0 → ∀ fuel, splitFuel ⟨2025, 5, 2⟩ 0 fuel ⟨2025, 5, 1⟩ = none) :=
  claim_C10 ⟨2025, 5, 1⟩ ⟨2025, 5, 2⟩ 0 (by decide) (by decide) (by decide)

end CurrencyBootstrap
